import Mathlib

/-!
Verification of the EcosolGIS-website project catalog.

The development embeds the repository's three JavaScript components:
* the client-side archive script (search / tag filtering / rendering),
* the Express admin server (auth middleware, validation middleware,
  read/append/delete of the JSON catalog file),
* the serverless (Netlify-style) POST handler.

Strings are modelled by Lean `String` (a list of characters); the JS
string helpers `toLowerCase`, `trim`, `includes` and `split(' ')` are
embedded as structurally recursive functions over the character list so
that every definition evaluates inside the kernel.  `Char.toLower` agrees
with JS `toLowerCase` on ASCII, which is the alphabet that all concrete
inputs below use.
-/

namespace EcosolGIS

/-- Embeds JS `s.toLowerCase()` (exact on ASCII). -/
def jsToLower (s : String) : String := ⟨s.data.map Char.toLower⟩

/-- Embeds JS `s.trim()`: drop leading and trailing whitespace. -/
def jsTrim (s : String) : String :=
  ⟨((s.data.dropWhile Char.isWhitespace).reverse.dropWhile Char.isWhitespace).reverse⟩

/-- Tests whether `pat` is a prefix of the character list `s`. -/
def startsWithChars : List Char → List Char → Bool
  | _, [] => true
  | [], _ :: _ => false
  | a :: as, b :: bs => a == b && startsWithChars as bs

/-- Tests whether `pat` occurs contiguously somewhere inside `s`. -/
def containsChars (pat : List Char) : List Char → Bool
  | [] => pat.isEmpty
  | c :: rest => startsWithChars (c :: rest) pat || containsChars pat rest

/-- Embeds JS `s.includes(pat)`: `pat` occurs contiguously inside `s`. -/
def jsIncludes (s pat : String) : Bool := containsChars pat.data s.data

/-- Splitting a character list at every occurrence of `sep`
(the JS `split` semantics: no collapsing, `[] => [[]]`). -/
def splitChars (sep : Char) : List Char → List (List Char)
  | [] => [[]]
  | c :: cs =>
    match splitChars sep cs with
    | [] => if c = sep then [[], []] else [[c]]
    | r :: rs => if c = sep then [] :: r :: rs else (c :: r) :: rs

/-- Embeds JS `s.split(' ')`. -/
def jsSplitSpace (s : String) : List String :=
  (splitChars ' ' s.data).map fun l => ⟨l⟩

/-- The double-quote character (written by code so the source file holds no
quote characters outside string literals). -/
def quoteChar : Char := Char.ofNat 34

/-- The apostrophe character. -/
def aposChar : Char := Char.ofNat 39

/-- One archived document of the catalog (`ProjectRecord`). -/
structure Project where
  title : String
  tags : List String
  file : String
  createdAt : String
deriving DecidableEq, Repr

/-- The case-insensitive title-uniqueness invariant of the catalog. -/
def TitleUnique (l : List Project) : Prop :=
  l.Pairwise fun p q => jsToLower p.title ≠ jsToLower q.title

/-! ## Catalog View (client archive script)

`filterProjects` recomputes the visible list from the full snapshot,
the raw search-input value and the active tag-filter set.  The active
set is modelled as a list of strings with membership via `contains`. -/

/-- Embeds `filterProjects` of the archive script: the search term is the
lower-cased, trimmed input value; a project is kept when it matches the
search term (empty term, title substring, or tag substring) and the tag
filters (empty set, or some lower-cased trimmed tag is an active filter). -/
def filterProjects (searchInputValue : String) (activeTagFilters : List String)
    (allProjects : List Project) : List Project :=
  let searchTerm := jsTrim (jsToLower searchInputValue)
  allProjects.filter fun project =>
    let titleMatch := jsIncludes (jsToLower project.title) searchTerm
    let tagMatch := project.tags.any fun tag => jsIncludes (jsToLower tag) searchTerm
    let searchMatch := searchTerm == "" || titleMatch || tagMatch
    let tagFilterMatch := activeTagFilters.isEmpty ||
      project.tags.any fun tag => activeTagFilters.contains (jsTrim (jsToLower tag))
    searchMatch && tagFilterMatch

/-- The inclusion condition exactly as the specification words it
(condition 2 tests membership of the case-folded tag, with no trimming). -/
def specIncluded (searchTerm : String) (activeTagFilters : List String)
    (project : Project) : Prop :=
  (searchTerm = "" ∨ jsIncludes (jsToLower project.title) searchTerm = true ∨
      ∃ tag ∈ project.tags, jsIncludes (jsToLower tag) searchTerm = true) ∧
  (activeTagFilters = [] ∨
      ∃ tag ∈ project.tags, jsToLower tag ∈ activeTagFilters)

/-- The inclusion condition amended to what the code computes: the tag
tested for membership in the active-filter set is case-folded AND trimmed. -/
def specIncludedTrimmed (searchTerm : String) (activeTagFilters : List String)
    (project : Project) : Prop :=
  (searchTerm = "" ∨ jsIncludes (jsToLower project.title) searchTerm = true ∨
      ∃ tag ∈ project.tags, jsIncludes (jsToLower tag) searchTerm = true) ∧
  (activeTagFilters = [] ∨
      ∃ tag ∈ project.tags, jsTrim (jsToLower tag) ∈ activeTagFilters)

instance (t a p) : Decidable (specIncluded t a p) := by
  unfold specIncluded; infer_instance

instance (t a p) : Decidable (specIncludedTrimmed t a p) := by
  unfold specIncludedTrimmed; infer_instance

/-! ## Tag vocabulary of the filter controls (`renderTagFilters`)

The script inserts every lower-cased, trimmed tag into a JS `Set`
(first-occurrence order) and sorts the resulting array.  The `Set` is
modelled as a duplicate-free list grown by `addTag`; JS `sort()` on
ASCII strings is lexicographic, modelled by insertion sort over `≤`. -/

/-- Adds one folded tag to the vocabulary unless already present
(the `Set.add` step of `renderTagFilters`). -/
def addTag (acc : List String) (t : String) : List String :=
  if acc.contains t then acc else acc ++ [t]

/-- Collects the folded tags of all projects in first-occurrence order
(the `allTags` set of `renderTagFilters`). -/
def collectTags (projects : List Project) : List String :=
  projects.foldl
    (fun acc p => p.tags.foldl (fun a tg => addTag a (jsTrim (jsToLower tg))) acc)
    []

/-- Lexicographic comparison of character lists — the order JS `sort()`
applies to the (ASCII) tag strings. -/
def leChars : List Char → List Char → Bool
  | [], _ => true
  | _ :: _, [] => false
  | a :: as, b :: bs => if a = b then leChars as bs else decide (a < b)

/-- Lexicographic string comparison backing the vocabulary sort. -/
def strLe (a b : String) : Bool := leChars a.data b.data

/-- Inserting a string into an already sorted list. -/
def insertSorted (x : String) : List String → List String
  | [] => [x]
  | y :: ys => if strLe x y then x :: y :: ys else y :: insertSorted x ys

/-- Insertion sort over `strLe` (embeds the JS `Array.sort()` call,
which on the deduplicated vocabulary produces the unique sorted
permutation). -/
def sortStrings : List String → List String
  | [] => []
  | x :: xs => insertSorted x (sortStrings xs)

/-- The sorted tag vocabulary rendered as filter controls
(`sortedTags` of `renderTagFilters`). -/
def sortedTags (projects : List Project) : List String :=
  sortStrings (collectTags projects)

/-! ## Project card markup escaping (`escapeHtml`) -/

/-- Embeds one JS `s.replace(/x/g, rep)` step for a single-character
pattern: every occurrence of `c` in `s` is replaced by `rep`. -/
def jsReplaceAllChar (s : String) (c : Char) (rep : String) : String :=
  ⟨s.data.foldr (fun ch acc => (if ch = c then rep.data else [ch]) ++ acc) []⟩

/-- Embeds `escapeHtml`: the five sequential global replacements
`&`→`&amp;`, `<`→`&lt;`, `>`→`&gt;`, `"`→`&quot;`, apostrophe→`&#039;`. -/
def escapeHtml (unsafeStr : String) : String :=
  jsReplaceAllChar
    (jsReplaceAllChar
      (jsReplaceAllChar
        (jsReplaceAllChar
          (jsReplaceAllChar unsafeStr '&' "&amp;")
          '<' "&lt;")
        '>' "&gt;")
      quoteChar "&quot;")
    aposChar "&#039;"

/-! ## Catalog Store — Express admin server

The request body fields arrive from `express.json()` and may hold any
JSON value; for the fields the server inspects we distinguish a missing
field, a present non-string value, and a string. -/

/-- A request-body field as the validation middleware sees it. -/
inductive JsVal where
  | undef
  | nonString
  | str (s : String)
deriving DecidableEq, Repr

/-- The `tags` request-body field: absent, present but not an array,
or an array of JSON values. -/
inductive JsTags where
  | undef
  | notArray
  | arr (l : List JsVal)
deriving DecidableEq, Repr

/-- The raw body of a POST request before validation. -/
structure Candidate where
  title : JsVal
  file : JsVal
  tags : JsTags
deriving DecidableEq, Repr

/-- A validated, normalized body (title and file trimmed, tags filtered
of non-strings and blanks and trimmed) — the `req.body` the route
handler receives after `validateProject` rewrote it. -/
structure NewProject where
  title : String
  file : String
  tags : List String
deriving DecidableEq, Repr

/-- Keeps the string content of a body field, when it is a string. -/
def JsVal.asString : JsVal → Option String
  | .str s => some s
  | _ => none

/-- Embeds the `validateProject` middleware: title and file must be
non-blank strings, `file` must parse as a URL (the WHATWG `new URL`
check of the JS host is taken as the oracle `urlOk`), tags must be an
array when present; on success the body is rewritten to the trimmed,
filtered form.  The error value carries the middleware's error kind. -/
def validateProject (urlOk : String → Bool) (c : Candidate) :
    Except String NewProject :=
  match c.title with
  | .str t =>
    if jsTrim t = "" then .error "Invalid title"
    else
      match c.file with
      | .str f =>
        if jsTrim f = "" then .error "Invalid file"
        else if urlOk f = false then .error "Invalid file URL"
        else
          match c.tags with
          | .notArray => .error "Invalid tags"
          | .undef => .ok ⟨jsTrim t, jsTrim f, []⟩
          | .arr l =>
              .ok ⟨jsTrim t, jsTrim f,
                ((l.filterMap JsVal.asString).filter
                  fun s => (jsTrim s).length > 0).map jsTrim⟩
      | _ => .error "Invalid file"
  | _ => .error "Invalid title"

/-- Embeds the token extraction of the `authenticateToken` middleware:
`authHeader && authHeader.split(' ')[1]`; the result is `none` exactly
when the middleware answers 401 (header absent, or no second
space-separated part, or an empty one — all falsy in JS). -/
def bearerToken (authHeader : Option String) : Option String :=
  match authHeader with
  | none => none
  | some h =>
    match (jsSplitSpace h).get? 1 with
    | none => none
    | some t => if t = "" then none else some t

/-- Outcome of a POST request: HTTP status, the persisted catalog after
the call, whether a write was performed, and the project of a 201 body. -/
structure PostResult where
  status : Nat
  catalog : List Project
  wrote : Bool
  stored : Option Project
deriving DecidableEq, Repr

/-- Embeds the body of `app.post('/api/projects')` after authentication:
validation, case-insensitive duplicate-title check, `createdAt := now`,
append, persist. -/
def handlePost (urlOk : String → Bool) (now : String) (c : Candidate)
    (catalog : List Project) : PostResult :=
  match validateProject urlOk c with
  | .error _ => ⟨400, catalog, false, none⟩
  | .ok np =>
    match catalog.find? fun p => jsToLower p.title == jsToLower np.title with
    | some _ => ⟨409, catalog, false, none⟩
    | none =>
      let stored : Project := ⟨np.title, np.tags, np.file, now⟩
      ⟨201, catalog ++ [stored], true, some stored⟩

/-- Embeds the full POST route: `authenticateToken` then the handler. -/
def postProject (urlOk : String → Bool) (secret now : String)
    (authHeader : Option String) (c : Candidate) (catalog : List Project) :
    PostResult :=
  match bearerToken authHeader with
  | none => ⟨401, catalog, false, none⟩
  | some tok =>
    if tok = secret then handlePost urlOk now c catalog
    else ⟨403, catalog, false, none⟩

/-- Outcome of a DELETE request. -/
structure DeleteResult where
  status : Nat
  catalog : List Project
  wrote : Bool
  deletedProject : Option Project
deriving DecidableEq, Repr

/-- Embeds the body of `app.delete('/api/projects/:title')` after
authentication: `findIndex` of the first case-insensitive title match,
404 when none, else `splice` it out, persist, and return it. -/
def deleteByTitle (titleToDelete : String) (catalog : List Project) :
    DeleteResult :=
  match catalog.findIdx? fun p => jsToLower p.title == jsToLower titleToDelete with
  | none => ⟨404, catalog, false, none⟩
  | some i => ⟨200, catalog.eraseIdx i, true, catalog[i]?⟩

/-- Embeds the full DELETE route: `authenticateToken` then the handler. -/
def deleteProject (secret : String) (authHeader : Option String)
    (titleToDelete : String) (catalog : List Project) : DeleteResult :=
  match bearerToken authHeader with
  | none => ⟨401, catalog, false, none⟩
  | some tok =>
    if tok = secret then deleteByTitle titleToDelete catalog
    else ⟨403, catalog, false, none⟩

/-! ## Catalog Store — reading the backing file (`readProjects`) -/

/-- A JSON value at the granularity `readProjects` inspects it. -/
inductive Jval where
  | jnull
  | jbool (b : Bool)
  | jnum (n : Int)
  | jstr (s : String)
  | jarr (l : List Jval)
  | jobj

/-- Modelled from the spec: a well-formed `ProjectRecord` in the backing
document is a JSON object (with the record's fields); every non-object
JSON value is certainly not a record.  `Jval` collapses all objects into
`jobj`, which is sufficient for the claims settled against it. -/
def recordLike : Jval → Bool
  | .jobj => true
  | _ => false

/-- The possible outcomes of `fs.readFile` + `JSON.parse` on the backing
document, as `readProjects` distinguishes them. -/
inductive Disk where
  | absent
  | ioError
  | unparseable
  | parsed (v : Jval)

/-- Embeds `readProjects`: a missing file yields the empty catalog; any
other read error, unparseable content, or a parsed value that is not an
array is surfaced as a failure; a parsed array is returned as-is (its
elements are not inspected). -/
def readProjects : Disk → Except String (List Jval)
  | .absent => .ok []
  | .ioError => .error "Failed to read projects file"
  | .unparseable => .error "Failed to read projects file"
  | .parsed (.jarr l) => .ok l
  | .parsed _ => .error "Failed to read projects file"

/-! ## Serverless POST handler (Netlify-style function)

The function checks the bearer token with a single inequality — a
missing token is `undefined` and also differs from the secret, so the
response is 403, never 401.  Body fields are modelled as strings (the
claims exercised against this handler concern the authentication gate
and the duplicate check). -/

/-- The parsed JSON body of the serverless handler; `tags` defaults to
`[]` via `newProject.tags || []`. -/
structure NetBody where
  title : String
  file : String
  tags : List String
deriving DecidableEq, Repr

/-- Embeds `(event.headers.authorization || '').split(' ')[1]`. -/
def netlifyToken (authHeader : Option String) : Option String :=
  (jsSplitSpace (authHeader.getD "")).get? 1

/-- Outcome of a serverless POST call. -/
structure NetResult where
  status : Nat
  catalog : List Project
  wrote : Bool
deriving DecidableEq, Repr

/-- Embeds the serverless `exports.handler` (POST assumed): token
inequality check (403), JSON body parse (`none` = invalid JSON, 400),
`!title || !file` check (400), duplicate-title check (409), then append
with `createdAt := now` and persist. -/
def netlifyPost (secret now : String) (authHeader : Option String)
    (body : Option NetBody) (catalog : List Project) : NetResult :=
  if netlifyToken authHeader = some secret then
    match body with
    | none => ⟨400, catalog, false⟩
    | some b =>
      if b.title = "" ∨ b.file = "" then ⟨400, catalog, false⟩
      else
        match catalog.find? fun p => jsToLower p.title == jsToLower b.title with
        | some _ => ⟨409, catalog, false⟩
        | none => ⟨201, catalog ++ [⟨b.title, b.tags, b.file, now⟩], true⟩
  else ⟨403, catalog, false⟩

/-! ## Claim-side predicates and concrete records used in the theorems -/

/-- The malformed-candidate condition of the validation claim: the title
or file field is missing, not a string, or blank, or the file value does
not parse as a URL. -/
def badCandidate (urlOk : String → Bool) (c : Candidate) : Bool :=
  (match c.title with
   | .str t => jsTrim t == ""
   | _ => true) ||
  (match c.file with
   | .str f => jsTrim f == "" || !(urlOk f)
   | _ => true)

/-- A character that can open a tag or close an attribute value in the
card markup: the four characters the escaping claim is about. -/
def htmlSafeChar (ch : Char) : Bool :=
  !(ch == '<' || ch == '>' || ch == quoteChar || ch == aposChar)

/-- The catalog record of the specification scenarios. -/
def wetlandSurvey : Project :=
  ⟨"Wetland Survey", ["ecology", "gis"], "https://x/a.pdf", "t0"⟩

/-- A record whose tag carries surrounding whitespace (exercises the
trimming step of the tag-filter membership test). -/
def paddedTagRecord : Project := ⟨"x", [" gis "], "https://x", "t0"⟩

/-- Two records whose titles collide case-insensitively (a catalog that
violates the uniqueness invariant). -/
def dupUpper : Project := ⟨"A", [], "https://a", "t0"⟩

/-- See `dupUpper`. -/
def dupLower : Project := ⟨"a", [], "https://b", "t0"⟩

/-- A record whose title does not collide with `dupUpper`/`dupLower`. -/
def otherRecord : Project := ⟨"B", ["eco"], "https://c", "t0"⟩

/-! ## Lemmas about the lexicographic order and the vocabulary sort -/

theorem leChars_total : ∀ as bs : List Char,
    leChars as bs = true ∨ leChars bs as = true
  | [], _ => .inl rfl
  | _ :: _, [] => .inr rfl
  | a :: as, b :: bs => by
    by_cases hab : a = b
    · subst hab
      simpa [leChars] using leChars_total as bs
    · rcases lt_trichotomy a b with h | h | h
      · left; simp [leChars, hab, h]
      · exact absurd h hab
      · right; simp [leChars, Ne.symm hab, h]

theorem leChars_trans : ∀ as bs cs : List Char,
    leChars as bs = true → leChars bs cs = true → leChars as cs = true
  | [], _, _ => by intro _ _; rfl
  | a :: as, [], _ => by intro h _; exact absurd h (by simp [leChars])
  | _ :: _, _ :: _, [] => by intro _ h; exact absurd h (by simp [leChars])
  | a :: as, b :: bs, c :: cs => by
    intro h₁ h₂
    by_cases hab : a = b <;> by_cases hbc : b = c
    · subst hab; subst hbc
      simp only [leChars, if_pos rfl] at h₁ h₂ ⊢
      exact leChars_trans as bs cs h₁ h₂
    · subst hab
      simpa [leChars, hbc] using h₂
    · subst hbc
      simpa [leChars, hab] using h₁
    · simp only [leChars, if_neg hab, decide_eq_true_iff] at h₁
      simp only [leChars, if_neg hbc, decide_eq_true_iff] at h₂
      have hac : a < c := lt_trans h₁ h₂
      simp [leChars, ne_of_lt hac, hac]

theorem strLe_total (a b : String) : strLe a b = true ∨ strLe b a = true :=
  leChars_total a.data b.data

theorem strLe_trans {a b c : String} (h₁ : strLe a b = true)
    (h₂ : strLe b c = true) : strLe a c = true :=
  leChars_trans a.data b.data c.data h₁ h₂

theorem mem_insertSorted {x y : String} :
    ∀ {l : List String}, x ∈ insertSorted y l ↔ x = y ∨ x ∈ l
  | [] => by simp [insertSorted]
  | z :: zs => by
    rw [insertSorted]
    by_cases h : strLe y z = true
    · simp [if_pos h]
    · simp only [if_neg h, List.mem_cons, mem_insertSorted (l := zs)]
      tauto

theorem pairwise_insertSorted {x : String} :
    ∀ {l : List String}, (l.Pairwise fun a b => strLe a b = true) →
      (insertSorted x l).Pairwise fun a b => strLe a b = true
  | [], _ => by simp [insertSorted]
  | y :: ys, h => by
    rw [insertSorted]
    obtain ⟨hy, hys⟩ := List.pairwise_cons.mp h
    by_cases hxy : strLe x y = true
    · rw [if_pos hxy]
      refine List.pairwise_cons.mpr ⟨?_, h⟩
      intro z hz
      rcases List.mem_cons.mp hz with rfl | hz
      · exact hxy
      · exact strLe_trans hxy (hy z hz)
    · rw [if_neg hxy]
      have hyx : strLe y x = true := (strLe_total x y).resolve_left hxy
      refine List.pairwise_cons.mpr ⟨?_, pairwise_insertSorted hys⟩
      intro z hz
      rcases mem_insertSorted.mp hz with rfl | hz
      · exact hyx
      · exact hy z hz

theorem nodup_insertSorted {x : String} :
    ∀ {l : List String}, l.Nodup → x ∉ l → (insertSorted x l).Nodup
  | [], _, _ => by simp [insertSorted]
  | y :: ys, hn, hx => by
    rw [insertSorted]
    obtain ⟨hy, hys⟩ := List.nodup_cons.mp hn
    by_cases hxy : strLe x y = true
    · rw [if_pos hxy]
      exact List.nodup_cons.mpr ⟨hx, hn⟩
    · rw [if_neg hxy]
      refine List.nodup_cons.mpr ⟨?_, nodup_insertSorted hys fun hmem => hx (.tail _ hmem)⟩
      intro hmem
      rcases mem_insertSorted.mp hmem with h | h
      · exact hx (h ▸ List.mem_cons_self y ys)
      · exact hy h

theorem mem_sortStrings {x : String} :
    ∀ {l : List String}, x ∈ sortStrings l ↔ x ∈ l
  | [] => Iff.rfl
  | y :: ys => by
    rw [sortStrings, mem_insertSorted]
    simp [mem_sortStrings (l := ys)]

theorem nodup_sortStrings : ∀ {l : List String}, l.Nodup → (sortStrings l).Nodup
  | [], _ => List.nodup_nil
  | y :: ys, hn => by
    rw [sortStrings]
    obtain ⟨hy, hys⟩ := List.nodup_cons.mp hn
    exact nodup_insertSorted (nodup_sortStrings hys) fun h => hy (mem_sortStrings.mp h)

theorem pairwise_sortStrings :
    ∀ (l : List String), (sortStrings l).Pairwise fun a b => strLe a b = true
  | [] => List.Pairwise.nil
  | y :: ys => pairwise_insertSorted (pairwise_sortStrings ys)

/-! ## Lemmas about the tag-vocabulary collection -/

theorem mem_addTag {x t : String} {acc : List String} :
    x ∈ addTag acc t ↔ x ∈ acc ∨ x = t := by
  unfold addTag
  by_cases h : acc.contains t = true
  · rw [if_pos h]
    have ht : t ∈ acc := by
      simpa [List.contains] using h
    constructor
    · exact Or.inl
    · rintro (hx | rfl)
      · exact hx
      · exact ht
  · rw [if_neg h]
    simp

theorem nodup_addTag {t : String} {acc : List String} (hn : acc.Nodup) :
    (addTag acc t).Nodup := by
  unfold addTag
  by_cases h : acc.contains t = true
  · rwa [if_pos h]
  · rw [if_neg h]
    have ht : t ∉ acc := by
      simpa [List.contains] using h
    refine hn.append (List.nodup_singleton t) ?_
    intro a ha hb
    rw [List.mem_singleton] at hb
    subst hb
    exact ht ha

theorem mem_foldl_addTag (f : String → String) :
    ∀ (ts acc : List String) (x : String),
      (x ∈ ts.foldl (fun a tg => addTag a (f tg)) acc ↔
        x ∈ acc ∨ ∃ t ∈ ts, f t = x)
  | [], acc, x => by simp
  | t :: ts, acc, x => by
    rw [List.foldl_cons, mem_foldl_addTag f ts (addTag acc (f t)) x, mem_addTag]
    constructor
    · rintro ((hx | rfl) | ⟨u, hu, rfl⟩)
      · exact .inl hx
      · exact .inr ⟨t, List.mem_cons_self t ts, rfl⟩
      · exact .inr ⟨u, List.mem_cons_of_mem t hu, rfl⟩
    · rintro (hx | ⟨u, hu, rfl⟩)
      · exact .inl (.inl hx)
      · rcases List.mem_cons.mp hu with rfl | hu
        · exact .inl (.inr rfl)
        · exact .inr ⟨u, hu, rfl⟩

theorem nodup_foldl_addTag (f : String → String) :
    ∀ (ts acc : List String), acc.Nodup →
      (ts.foldl (fun a tg => addTag a (f tg)) acc).Nodup
  | [], _, hn => hn
  | t :: ts, acc, hn =>
    nodup_foldl_addTag f ts (addTag acc (f t)) (nodup_addTag hn)

theorem mem_foldl_collect :
    ∀ (ps : List Project) (acc : List String) (x : String),
      (x ∈ ps.foldl
          (fun acc p => p.tags.foldl (fun a tg => addTag a (jsTrim (jsToLower tg))) acc)
          acc ↔
        x ∈ acc ∨ ∃ p ∈ ps, ∃ t ∈ p.tags, jsTrim (jsToLower t) = x)
  | [], acc, x => by simp
  | p :: ps, acc, x => by
    rw [List.foldl_cons, mem_foldl_collect ps _ x,
      mem_foldl_addTag (fun tg => jsTrim (jsToLower tg)) p.tags acc x]
    constructor
    · rintro ((hx | ⟨t, ht, rfl⟩) | ⟨q, hq, t, ht, rfl⟩)
      · exact .inl hx
      · exact .inr ⟨p, List.mem_cons_self p ps, t, ht, rfl⟩
      · exact .inr ⟨q, List.mem_cons_of_mem p hq, t, ht, rfl⟩
    · rintro (hx | ⟨q, hq, t, ht, rfl⟩)
      · exact .inl (.inl hx)
      · rcases List.mem_cons.mp hq with rfl | hq
        · exact .inl (.inr ⟨t, ht, rfl⟩)
        · exact .inr ⟨q, hq, t, ht, rfl⟩

theorem mem_collectTags {x : String} {ps : List Project} :
    x ∈ collectTags ps ↔ ∃ p ∈ ps, ∃ t ∈ p.tags, jsTrim (jsToLower t) = x := by
  unfold collectTags
  rw [mem_foldl_collect ps [] x]
  simp

theorem nodup_foldl_collect :
    ∀ (ps : List Project) (acc : List String), acc.Nodup →
      (ps.foldl
        (fun acc p => p.tags.foldl (fun a tg => addTag a (jsTrim (jsToLower tg))) acc)
        acc).Nodup
  | [], _, hn => hn
  | p :: ps, acc, hn =>
    nodup_foldl_collect ps _
      (nodup_foldl_addTag (fun tg => jsTrim (jsToLower tg)) p.tags acc hn)

theorem nodup_collectTags (ps : List Project) : (collectTags ps).Nodup :=
  nodup_foldl_collect ps [] List.nodup_nil

/-! ## Lemmas about `findIdx?` / `eraseIdx` used by the delete handler -/

theorem findIdx?_append_cons {α : Type} (pred : α → Bool) :
    ∀ (l₁ : List α) (p : α) (l₂ : List α) (i : Nat),
      (∀ q ∈ l₁, pred q = false) → pred p = true →
      List.findIdx? pred (l₁ ++ p :: l₂) i = some (i + l₁.length)
  | [], p, l₂, i, _, hp => by simp [List.findIdx?, hp]
  | q :: l₁, p, l₂, i, hq, hp => by
    have hq0 : pred q = false := hq q (List.mem_cons_self q l₁)
    have ih := findIdx?_append_cons pred l₁ p l₂ (i + 1)
      (fun r hr => hq r (List.mem_cons_of_mem q hr)) hp
    simp only [List.cons_append, List.findIdx?, hq0, List.append_eq,
      if_neg (by simp [hq0] : ¬ pred q = true)]
    rw [ih]
    simp [Nat.add_assoc, Nat.add_comm 1 l₁.length]

theorem findIdx?_none_all {α : Type} (pred : α → Bool) :
    ∀ (l : List α) (i : Nat), List.findIdx? pred l i = none →
      ∀ x ∈ l, pred x = false
  | [], _, _, x, hx => absurd hx (List.not_mem_nil x)
  | a :: l, i, h, x, hx => by
    rw [List.findIdx?] at h
    by_cases ha : pred a = true
    · rw [if_pos ha] at h; exact absurd h (by simp)
    · rw [if_neg ha] at h
      rcases List.mem_cons.mp hx with rfl | hx
      · exact Bool.eq_false_iff.mpr ha
      · exact findIdx?_none_all pred l (i + 1) h x hx

theorem findIdx?_some_decomp {α : Type} (pred : α → Bool) :
    ∀ (l : List α) (i j : Nat), List.findIdx? pred l i = some j →
      ∃ l₁ x l₂, l = l₁ ++ x :: l₂ ∧ j = i + l₁.length ∧
        (∀ q ∈ l₁, pred q = false) ∧ pred x = true
  | [], _, _, h => by simp [List.findIdx?] at h
  | a :: l, i, j, h => by
    rw [List.findIdx?] at h
    by_cases ha : pred a = true
    · rw [if_pos ha] at h
      exact ⟨[], a, l, by simp, by simpa using (Option.some.inj h).symm,
        by simp, ha⟩
    · rw [if_neg ha] at h
      obtain ⟨l₁, x, l₂, rfl, rfl, hq, hx⟩ :=
        findIdx?_some_decomp pred l (i + 1) j h
      exact ⟨a :: l₁, x, l₂, rfl,
        by simp [Nat.add_assoc, Nat.add_comm 1 l₁.length],
        by
          intro q hqm
          rcases List.mem_cons.mp hqm with rfl | hqm
          · exact Bool.eq_false_iff.mpr ha
          · exact hq q hqm,
        hx⟩

theorem eraseIdx_append_length {α : Type} :
    ∀ (l₁ : List α) (p : α) (l₂ : List α),
      (l₁ ++ p :: l₂).eraseIdx l₁.length = l₁ ++ l₂
  | [], _, _ => rfl
  | q :: l₁, p, l₂ => by
    simp only [List.cons_append, List.length_cons, List.eraseIdx, List.append_eq]
    rw [eraseIdx_append_length l₁ p l₂]

theorem getElem?_append_length {α : Type} :
    ∀ (l₁ : List α) (p : α) (l₂ : List α),
      (l₁ ++ p :: l₂)[l₁.length]? = some p
  | [], _, _ => by simp
  | q :: l₁, p, l₂ => by
    simp only [List.cons_append, List.length_cons, List.getElem?_cons_succ]
    exact getElem?_append_length l₁ p l₂

/-! ## Lemmas about the escaping function -/

theorem mem_replaceFoldr (c : Char) (rep : List Char) :
    ∀ (l : List Char) (ch : Char),
      ch ∈ l.foldr (fun x acc => (if x = c then rep else [x]) ++ acc) [] →
      ch ∈ rep ∨ (ch ∈ l ∧ ch ≠ c)
  | [], ch, h => absurd h (List.not_mem_nil ch)
  | x :: l, ch, h => by
    rw [List.foldr_cons, List.mem_append] at h
    rcases h with h | h
    · by_cases hx : x = c
      · rw [if_pos hx] at h
        exact .inl h
      · rw [if_neg hx] at h
        rw [List.mem_singleton] at h
        subst h
        exact .inr ⟨List.mem_cons_self ch l, hx⟩
    · rcases mem_replaceFoldr c rep l ch h with h | ⟨hm, hne⟩
      · exact .inl h
      · exact .inr ⟨List.mem_cons_of_mem x hm, hne⟩

theorem mem_jsReplaceAllChar {ch : Char} {s : String} {c : Char} {rep : String}
    (h : ch ∈ (jsReplaceAllChar s c rep).data) :
    ch ∈ rep.data ∨ (ch ∈ s.data ∧ ch ≠ c) :=
  mem_replaceFoldr c rep.data s.data ch h

/-! ## Lemmas about the validation middleware -/

theorem validateProject_not_ok (urlOk : String → Bool) (c : Candidate)
    (h : badCandidate urlOk c = true) (np : NewProject) :
    validateProject urlOk c ≠ .ok np := by
  obtain ⟨ct, cf, ctags⟩ := c
  cases ct with
  | undef => simp [validateProject]
  | nonString => simp [validateProject]
  | str t =>
    cases cf with
    | undef =>
      simp only [validateProject]
      by_cases h1 : jsTrim t = "" <;> simp [h1]
    | nonString =>
      simp only [validateProject]
      by_cases h1 : jsTrim t = "" <;> simp [h1]
    | str f =>
      simp only [badCandidate] at h
      by_cases h1 : jsTrim t = ""
      · simp [validateProject, h1]
      · by_cases h2 : jsTrim f = ""
        · simp [validateProject, h1, h2]
        · have hurl : urlOk f = false := by
            have h1b : (jsTrim t == "") = false := by simpa using h1
            have h2b : (jsTrim f == "") = false := by simpa using h2
            simpa [h1b, h2b] using h
          simp [validateProject, h1, h2, hurl]

/-! ## The claims -/

/-- C1 counterexample: the catalog holds "Wetland Survey" and the POST
candidate carries the very same title (so the duplicate-title condition
of the claim holds), but its file is blank, and the pipeline answers 400
(ValidationError), not the claimed 409. -/
theorem claim_C1_counterexample :
    (List.find? (fun p => jsToLower p.title == jsToLower "Wetland Survey")
      [wetlandSurvey]).isSome = true ∧
    handlePost (fun _ => true) "t1" ⟨.str "Wetland Survey", .str "", .undef⟩
      [wetlandSurvey] = ⟨400, [wetlandSurvey], false, none⟩ :=
  ⟨by decide, by decide⟩

/-- C1 (amended): for every catalog and every candidate that passes
validation, when the normalized title case-insensitively equals the
title of some existing record the POST pipeline fails with 409
DuplicateTitle, no record is added and no write is performed. -/
theorem claim_C1_amended (urlOk : String → Bool) (now : String) (c : Candidate)
    (catalog : List Project) (np : NewProject)
    (hval : validateProject urlOk c = .ok np)
    (hdup : ∃ p ∈ catalog, jsToLower p.title = jsToLower np.title) :
    handlePost urlOk now c catalog = ⟨409, catalog, false, none⟩ := by
  have hsome :
      (catalog.find? fun p => jsToLower p.title == jsToLower np.title).isSome
        = true := by
    rw [List.find?_isSome]
    obtain ⟨p, hp, ht⟩ := hdup
    exact ⟨p, hp, by simpa using ht⟩
  rcases hfind : catalog.find? (fun p => jsToLower p.title == jsToLower np.title)
    with _ | q
  · rw [hfind] at hsome
    simp at hsome
  · simp only [handlePost, hval, hfind]

/-- C1 witness: the specification scenario — POSTing a case-different
duplicate of "Wetland Survey" yields 409 and leaves the catalog as it
was. -/
theorem claim_C1_witness :
    handlePost (fun _ => true) "t2"
      ⟨.str "wetland survey", .str "https://x/b.pdf", .undef⟩ [wetlandSurvey]
      = ⟨409, [wetlandSurvey], false, none⟩ :=
  claim_C1_amended (fun _ => true) "t2"
    ⟨.str "wetland survey", .str "https://x/b.pdf", .undef⟩ [wetlandSurvey]
    ⟨"wetland survey", "https://x/b.pdf", []⟩ rfl
    ⟨wetlandSurvey, by simp, by decide⟩

/-- C2 counterexample: a record tagged " gis " (surrounding whitespace)
with the active filter set containing "gis": the code keeps the record
(it trims the tag before the membership test) while the claim's
condition — membership of the merely case-folded tag — fails. -/
theorem claim_C2_counterexample :
    filterProjects "" ["gis"] [paddedTagRecord] = [paddedTagRecord] ∧
    ¬ specIncluded "" ["gis"] paddedTagRecord :=
  ⟨by decide, by decide⟩

/-- C2 (amended): `filterProjects` includes a record if and only if it
is in the snapshot and satisfies the two-condition predicate in which
the tag tested for filter-set membership is case-folded AND trimmed
(the search-substring conditions are as the claim states them). -/
theorem claim_C2_amended (searchInputValue : String)
    (activeTagFilters : List String) (allProjects : List Project) (p : Project) :
    p ∈ filterProjects searchInputValue activeTagFilters allProjects ↔
      p ∈ allProjects ∧
        specIncludedTrimmed (jsTrim (jsToLower searchInputValue))
          activeTagFilters p := by
  unfold filterProjects specIncludedTrimmed
  rw [List.mem_filter]
  simp only [Bool.and_eq_true, Bool.or_eq_true, beq_iff_eq, List.any_eq_true,
    List.isEmpty_iff, List.contains, List.elem_iff]
  tauto

/-- C3 counterexample: a catalog violating the uniqueness invariant —
titles "A" and "a" — after `deleteByTitle "a"` still contains a record
whose case-folded title equals the case-folded argument (only the first
match is spliced out). -/
theorem claim_C3_counterexample :
    (deleteByTitle "a" [dupUpper, dupLower]).catalog = [dupLower] ∧
    ((deleteByTitle "a" [dupUpper, dupLower]).catalog.all
      fun p => !(jsToLower p.title == jsToLower "a")) = false :=
  ⟨by decide, by decide⟩

/-- C3 (amended): for every catalog satisfying the case-insensitive
title-uniqueness invariant and every title, after `deleteByTitle t` the
resulting catalog contains no record whose case-folded title equals the
case-folded `t`. -/
theorem claim_C3_amended (t : String) (l : List Project)
    (huniq : TitleUnique l) :
    ((deleteByTitle t l).catalog.all
      fun p => !(jsToLower p.title == jsToLower t)) = true := by
  cases h : l.findIdx? (fun p => jsToLower p.title == jsToLower t) with
  | none =>
    simp only [deleteByTitle, h]
    rw [List.all_eq_true]
    intro p hp
    have hfalse := findIdx?_none_all _ l 0 h p hp
    simp [hfalse]
  | some i =>
    simp only [deleteByTitle, h]
    obtain ⟨l₁, x, l₂, rfl, hj, hskip, hx⟩ := findIdx?_some_decomp _ l 0 i h
    subst hj
    simp only [Nat.zero_add]
    rw [eraseIdx_append_length l₁ x l₂, List.all_append, Bool.and_eq_true]
    have hxt : jsToLower x.title = jsToLower t := by simpa using hx
    obtain ⟨-, hx2, -⟩ := List.pairwise_append.mp huniq
    have hx3 : ∀ y ∈ l₂, jsToLower x.title ≠ jsToLower y.title :=
      (List.pairwise_cons.mp hx2).1
    constructor
    · rw [List.all_eq_true]
      intro q hq
      simp [hskip q hq]
    · rw [List.all_eq_true]
      intro y hy
      have hne := hx3 y hy
      have : (jsToLower y.title == jsToLower t) = false := by
        rw [beq_eq_false_iff_ne]
        intro hyt
        rw [hxt, ← hyt] at hne
        exact hne rfl
      simp [this]

/-- C3 witness: the specification scenario — deleting "wetland survey"
(case-different) from the singleton catalog leaves no matching record. -/
theorem claim_C3_witness :
    TitleUnique [wetlandSurvey] ∧
    ((deleteByTitle "wetland survey" [wetlandSurvey]).catalog.all
      fun p => !(jsToLower p.title == jsToLower "wetland survey")) = true :=
  ⟨by simp [TitleUnique],
    claim_C3_amended "wetland survey" [wetlandSurvey] (by simp [TitleUnique])⟩

/-- C4 counterexample: a serverless POST whose request carries no
Authorization header at all is answered 403, not the 401 the claim
states for requests with no token. -/
theorem claim_C4_counterexample :
    netlifyPost "secret-token" "t4" none (some ⟨"A", "https://x/a.pdf", []⟩) []
      = ⟨403, [], false⟩ ∧ (403 : Nat) ≠ 401 :=
  ⟨by decide, by decide⟩

/-- C4 (amended): under the Express server a POST or DELETE with no
token is answered 401 and one with a wrong token 403, the mutation
handler being unreachable in both cases; the serverless POST handler
instead answers 403 whenever the token differs from the secret —
including when no token is present — and likewise performs no
mutation. -/
theorem claim_C4_amended (urlOk : String → Bool)
    (secret now titleToDelete : String) (authHeader : Option String)
    (c : Candidate) (body : Option NetBody) (catalog : List Project) :
    (bearerToken authHeader = none →
      postProject urlOk secret now authHeader c catalog
        = ⟨401, catalog, false, none⟩ ∧
      deleteProject secret authHeader titleToDelete catalog
        = ⟨401, catalog, false, none⟩) ∧
    (∀ tok, bearerToken authHeader = some tok → tok ≠ secret →
      postProject urlOk secret now authHeader c catalog
        = ⟨403, catalog, false, none⟩ ∧
      deleteProject secret authHeader titleToDelete catalog
        = ⟨403, catalog, false, none⟩) ∧
    (netlifyToken authHeader ≠ some secret →
      netlifyPost secret now authHeader body catalog = ⟨403, catalog, false⟩) := by
  refine ⟨fun h => ⟨?_, ?_⟩, fun tok h hne => ⟨?_, ?_⟩, fun h => ?_⟩
  · simp only [postProject, h]
  · simp only [deleteProject, h]
  · simp only [postProject, h]
    rw [if_neg hne]
  · simp only [deleteProject, h]
    rw [if_neg hne]
  · unfold netlifyPost
    rw [if_neg h]

/-- C4 witness: with no Authorization header the Express POST and
DELETE answer 401, and the serverless POST answers 403. -/
theorem claim_C4_witness :
    postProject (fun _ => true) "s" "t" none ⟨.str "A", .str "https://x", .undef⟩ []
      = ⟨401, [], false, none⟩ ∧
    deleteProject "s" none "x" [] = ⟨401, [], false, none⟩ ∧
    netlifyPost "s" "t" none none [] = ⟨403, [], false⟩ := by
  have h := claim_C4_amended (fun _ => true) "s" "t" "x" none
    ⟨.str "A", .str "https://x", .undef⟩ none []
  exact ⟨(h.1 rfl).1, (h.1 rfl).2, h.2.2 (by decide)⟩

/-- C5: every candidate whose title or file is missing, not a string or
blank, or whose file does not parse as a URL, is rejected with 400
before any persistence attempt: the persisted catalog is unchanged and
no write is performed. -/
theorem claim_C5 (urlOk : String → Bool) (now : String) (c : Candidate)
    (catalog : List Project) (h : badCandidate urlOk c = true) :
    handlePost urlOk now c catalog = ⟨400, catalog, false, none⟩ := by
  rcases hv : validateProject urlOk c with e | np
  · unfold handlePost
    rw [hv]
  · exact absurd hv (validateProject_not_ok urlOk c h np)

/-- C5 witness: a candidate whose file value the URL parser rejects is
answered 400 with the catalog untouched. -/
theorem claim_C5_witness :
    handlePost (fun _ => false) "t5" ⟨.str "Wetland", .str "notaurl", .undef⟩
      [wetlandSurvey] = ⟨400, [wetlandSurvey], false, none⟩ :=
  claim_C5 (fun _ => false) "t5" ⟨.str "Wetland", .str "notaurl", .undef⟩
    [wetlandSurvey] (by decide)

/-- C6 counterexample: a backing file whose parsed content is an array
holding a bare string — not a sequence of records — is accepted by
`readProjects` and returned as the catalog, instead of failing with
CorruptData as the claim states. -/
theorem claim_C6_counterexample :
    readProjects (.parsed (.jarr [.jstr "oops"])) = .ok [.jstr "oops"] ∧
    recordLike (.jstr "oops") = false :=
  ⟨rfl, rfl⟩

/-- C6 (amended): `readProjects` yields the empty catalog when the file
is absent; it fails on any other I/O error, on unparseable content and
on parsed content that is not an array; a parsed array is returned
as-is, its elements not being validated as records. -/
theorem claim_C6_amended :
    readProjects .absent = .ok ([] : List Jval) ∧
    (∀ l : List Jval, readProjects (.parsed (.jarr l)) = .ok l) ∧
    (readProjects .ioError).isOk = false ∧
    (readProjects .unparseable).isOk = false ∧
    (∀ v : Jval, (∀ l, v ≠ .jarr l) → (readProjects (.parsed v)).isOk = false) := by
  refine ⟨rfl, fun l => rfl, rfl, rfl, fun v hv => ?_⟩
  cases v with
  | jarr l => exact absurd rfl (hv l)
  | jnull => rfl
  | jbool b => rfl
  | jnum n => rfl
  | jstr s => rfl
  | jobj => rfl

/-- C6 witness: a parsed object (not an array) makes the read fail. -/
theorem claim_C6_witness : (readProjects (.parsed .jobj)).isOk = false :=
  claim_C6_amended.2.2.2.2 .jobj fun _ h => Jval.noConfusion h

/-- C7 counterexample: a valid candidate whose title carries a trailing
blank is appended successfully, but the stored record's title is the
trimmed one, so no record of the persisted catalog has title, file and
tags equal to the candidate's. -/
theorem claim_C7_counterexample :
    handlePost (fun _ => true) "t9" ⟨.str "A ", .str "https://x", .undef⟩ [] =
      ⟨201, [⟨"A", [], "https://x", "t9"⟩], true,
        some ⟨"A", [], "https://x", "t9"⟩⟩ ∧
    (([⟨"A", [], "https://x", "t9"⟩] : List Project).all
      fun p => !(p.title == "A ")) = true :=
  ⟨by decide, by decide⟩

/-- C7 (amended): for every catalog satisfying the uniqueness invariant
and every candidate that passes validation whose normalized title is
not already present, the append succeeds with 201, the persisted
catalog is the old one plus one record carrying the normalized title,
file and tags and `createdAt = now`; that record is the unique one
matching the normalized candidate on title, file and tags, it is the
last element, and it is returned in the response. -/
theorem claim_C7_amended (urlOk : String → Bool) (now : String) (c : Candidate)
    (catalog : List Project) (np : NewProject)
    (huniq : TitleUnique catalog)
    (hval : validateProject urlOk c = .ok np)
    (hfresh : ∀ p ∈ catalog, jsToLower p.title ≠ jsToLower np.title) :
    handlePost urlOk now c catalog =
      ⟨201, catalog ++ [Project.mk np.title np.tags np.file now], true,
        some (Project.mk np.title np.tags np.file now)⟩ ∧
    (catalog ++ [Project.mk np.title np.tags np.file now]).filter
        (fun p => p.title == np.title && p.file == np.file && p.tags == np.tags)
      = [Project.mk np.title np.tags np.file now] ∧
    (catalog ++ [Project.mk np.title np.tags np.file now]).getLast? =
      some (Project.mk np.title np.tags np.file now) := by
  have hnone :
      (catalog.find? fun p => jsToLower p.title == jsToLower np.title) = none := by
    rw [List.find?_eq_none]
    intro p hp
    simpa using hfresh p hp
  refine ⟨?_, ?_, List.getLast?_concat catalog⟩
  · simp only [handlePost, hval, hnone]
  · rw [List.filter_append]
    have hcat : catalog.filter
        (fun p => p.title == np.title && p.file == np.file && p.tags == np.tags)
        = [] := by
      rw [List.filter_eq_nil_iff]
      intro p hp
      have hne : p.title ≠ np.title := by
        intro he
        exact hfresh p hp (by rw [he])
      simp [hne]
    rw [hcat]
    simp

/-- C7 witness: appending a fresh valid candidate (with a blank and a
non-string tag filtered out) to the scenario catalog stores it at the
end with the assigned timestamp, and it is the unique match. -/
theorem claim_C7_witness :
    handlePost (fun _ => true) "t7"
        ⟨.str "New Proj", .str "https://y/z.pdf",
          .arr [.str "eco", .str " ", .nonString]⟩ [wetlandSurvey] =
      ⟨201, [wetlandSurvey, Project.mk "New Proj" ["eco"] "https://y/z.pdf" "t7"],
        true, some (Project.mk "New Proj" ["eco"] "https://y/z.pdf" "t7")⟩ ∧
    ([wetlandSurvey, Project.mk "New Proj" ["eco"] "https://y/z.pdf" "t7"]).filter
        (fun p => p.title == "New Proj" && p.file == "https://y/z.pdf"
          && p.tags == ["eco"])
      = [Project.mk "New Proj" ["eco"] "https://y/z.pdf" "t7"] ∧
    ([wetlandSurvey,
        Project.mk "New Proj" ["eco"] "https://y/z.pdf" "t7"]).getLast? =
      some (Project.mk "New Proj" ["eco"] "https://y/z.pdf" "t7") :=
  claim_C7_amended (fun _ => true) "t7"
    ⟨.str "New Proj", .str "https://y/z.pdf",
      .arr [.str "eco", .str " ", .nonString]⟩ [wetlandSurvey]
    ⟨"New Proj", "https://y/z.pdf", ["eco"]⟩
    (by simp [TitleUnique]) rfl (by decide)

/-- C9: a successful delete removes exactly the first record (in
insertion order) whose case-folded title matches the argument; every
record before it and after it is kept unchanged in its relative order
in the persisted catalog, and the removed record itself is returned as
`deletedProject`. -/
theorem claim_C9 (titleToDelete : String) (l₁ l₂ : List Project) (p : Project)
    (hskip : ∀ q ∈ l₁, (jsToLower q.title == jsToLower titleToDelete) = false)
    (hmatch : (jsToLower p.title == jsToLower titleToDelete) = true) :
    deleteByTitle titleToDelete (l₁ ++ p :: l₂) = ⟨200, l₁ ++ l₂, true, some p⟩ := by
  unfold deleteByTitle
  have hidx : (l₁ ++ p :: l₂).findIdx?
      (fun q => jsToLower q.title == jsToLower titleToDelete) = some l₁.length := by
    simpa using findIdx?_append_cons
      (fun q => jsToLower q.title == jsToLower titleToDelete) l₁ p l₂ 0 hskip hmatch
  rw [hidx]
  show DeleteResult.mk 200 ((l₁ ++ p :: l₂).eraseIdx l₁.length) true
      ((l₁ ++ p :: l₂)[l₁.length]?) = _
  rw [eraseIdx_append_length l₁ p l₂, getElem?_append_length l₁ p l₂]

/-- C9 witness: deleting "a" from a three-record catalog removes only
the first case-insensitive match (the middle record), keeps the other
two in order, and returns the removed record. -/
theorem claim_C9_witness :
    deleteByTitle "a" [otherRecord, dupLower, dupUpper]
      = ⟨200, [otherRecord, dupUpper], true, some dupLower⟩ :=
  claim_C9 "a" [otherRecord] [dupUpper] dupLower (by decide) (by decide)

/-- C8: for every catalog snapshot, the tag vocabulary of the filter
controls is strictly sorted in the lexicographic order (hence duplicate
free), and a string belongs to it exactly when it is the case-folded,
trimmed form of some tag of some record. -/
theorem claim_C8 (ps : List Project) :
    ((sortedTags ps).Pairwise fun a b => strLe a b = true ∧ a ≠ b) ∧
    ∀ x, x ∈ sortedTags ps ↔ ∃ p ∈ ps, ∃ t ∈ p.tags, jsTrim (jsToLower t) = x := by
  constructor
  · rw [List.pairwise_and_iff]
    exact ⟨pairwise_sortStrings (collectTags ps),
      nodup_sortStrings (nodup_collectTags ps)⟩
  · intro x
    unfold sortedTags
    rw [mem_sortStrings, mem_collectTags]

/-- C10: for every input string, the escaped output contains none of
the characters that could open an HTML tag or delimit an attribute
value: no less-than, greater-than, double-quote or apostrophe. -/
theorem claim_C10 (s : String) :
    (escapeHtml s).data.all htmlSafeChar = true := by
  rw [List.all_eq_true]
  intro ch hch
  have safe_of_ne : ch ≠ '<' → ch ≠ '>' → ch ≠ quoteChar → ch ≠ aposChar →
      htmlSafeChar ch = true := by
    intro h1 h2 h3 h4
    simp [htmlSafeChar, h1, h2, h3, h4]
  have rep1 : ∀ c ∈ "&#039;".data, htmlSafeChar c = true :=
    List.all_eq_true.mp (by decide)
  have rep2 : ∀ c ∈ "&quot;".data, htmlSafeChar c = true :=
    List.all_eq_true.mp (by decide)
  have rep3 : ∀ c ∈ "&gt;".data, htmlSafeChar c = true :=
    List.all_eq_true.mp (by decide)
  have rep4 : ∀ c ∈ "&lt;".data, htmlSafeChar c = true :=
    List.all_eq_true.mp (by decide)
  have rep5 : ∀ c ∈ "&amp;".data, htmlSafeChar c = true :=
    List.all_eq_true.mp (by decide)
  unfold escapeHtml at hch
  rcases mem_jsReplaceAllChar hch with h5 | ⟨h5, hne5⟩
  · exact rep1 ch h5
  rcases mem_jsReplaceAllChar h5 with h4 | ⟨h4, hne4⟩
  · exact rep2 ch h4
  rcases mem_jsReplaceAllChar h4 with h3 | ⟨h3, hne3⟩
  · exact rep3 ch h3
  rcases mem_jsReplaceAllChar h3 with h2 | ⟨h2, hne2⟩
  · exact rep4 ch h2
  rcases mem_jsReplaceAllChar h2 with h1 | ⟨_, _⟩
  · exact rep5 ch h1
  · exact safe_of_ne hne2 hne3 hne4 hne5

end EcosolGIS
